import Mathlib

/-!
# A sequential model of the channel-backed resource pool (`channel.go`, `pool.go`)

The pool is embedded as pure functions over an explicit pool value and an
explicit `World`.

* A Go `interface{}` resource is a `Conn`: `none` is Go's `nil`, `some k` is
  the object with identity `k`.
* A Go `error` is `Option error`: `none` is the nil error.
* The buffered channel `chan *idleConn` is a `Chan`: its queued entries
  (oldest first), its capacity and whether `close` was called on it.
  A nil channel is `none : Option Chan`.
* The two callbacks are function values that may be nil, so they are
  `Option`s.  The outcome of the `k`-th call of the factory is `f k`; the
  outcome of the destroy callback called on `x` after `k` earlier calls is
  `g k x`.  This lets the callbacks be arbitrary stateful functions of their
  own call history.  They are assumed to return.
* `time.Now()` is an oracle too: the `k`-th reading of the clock is
  `w.clock k`.  Instants and durations are integers (nanoseconds).
* The `World` counts the factory calls, the clock readings, and logs the
  argument of every call of the destroy callback, in call order.
* Every operation is total: a Go run-time panic (calling a nil function,
  sending on or closing a closed channel) is the outcome `Res.panic`, a send
  that would block for ever is `Res.hang`; the pool and world left behind are
  returned next to it.
* The mutex only matters between goroutines; one call at a time is modelled.
  In such a run the channel held in `c.conns` is never a closed one, since
  `Release` closes the channel only after it has set `c.conns` to nil; the
  `closed` flag is kept so that every branch of the source has its counterpart.
* `make(chan *idleConn, n)` does not return for every `n`: the Go runtime
  panics with `makechan: size out of range` (or gives up for lack of memory)
  above a capacity that depends on the platform and is not part of this
  repository.  The `World` carries it as `chanLimit`, the largest capacity for
  which `make` returns; above it `make` is the outcome `Res.panic`.
* Assumed of the caller: the `*PoolConfig` passed to `NewChannelPool` is not
  nil.  The Go `int`s `InitialCap` and `MaxCap` are integers; they are only
  compared, and the loop counter runs from 0 to `InitialCap`.
-/

namespace pool

/-- Go `error` values that are not nil.  `ErrorClosed` is the package-level
sentinel of `pool.go`; `New msg` is a value made by `errors.New`, `Errorf msg`
one made by `fmt.Errorf`, and `ext msg` an error made by a callback. -/
inductive error where
  | ErrorClosed
  | New (msg : String)
  | Errorf (msg : String)
  | ext (msg : String)
  deriving DecidableEq, Repr

/-- The method `Error()` of an error value: its message. -/
def error.Error : error → String
  | .ErrorClosed => "pool is closed"
  | .New msg => msg
  | .Errorf msg => msg
  | .ext msg => msg

/-- A resource handle, Go `interface{}`: `none` is nil. -/
abbrev Conn := Option Nat

/-- The struct `idleConn`: a resource and the instant it was stored. -/
structure idleConn where
  conn : Conn
  t : Int
  deriving DecidableEq, Repr

/-- A buffered channel of `*idleConn`. -/
structure Chan where
  buf : List idleConn
  cap : Nat
  closed : Bool
  deriving DecidableEq, Repr

/-- The factory callback: outcome of the call numbered by its argument. -/
abbrev FactoryFn := Nat → Conn × Option error

/-- The destroy callback: outcome on a resource, given the number of earlier calls. -/
abbrev CloseFn := Nat → Conn → Option error

/-- The struct `PoolConfig`. -/
structure PoolConfig where
  InitialCap : Int
  MaxCap : Int
  Factory : Option FactoryFn
  Close : Option CloseFn
  IdleTimeout : Int

/-- The struct `channelPool` (without its mutex). -/
structure channelPool where
  conns : Option Chan
  factory : Option FactoryFn
  close : Option CloseFn
  idleTimeout : Int

/-- What lies outside the pool: the clock, the history of callback calls, and
the largest capacity for which `make(chan *idleConn, n)` returns. -/
structure World where
  clock : Nat → Int
  clockReads : Nat
  factoryCalls : Nat
  closeLog : List Conn
  chanLimit : Nat

/-- Outcome of a call: a normal return, a run-time panic, or blocking for ever. -/
inductive Res (α : Type) where
  | ok (a : α)
  | panic
  | hang
  deriving DecidableEq, Repr

/-- The message of the error that `Put` and `Close` make. -/
def rejectMsg : String := "connection is nil. rejecting"

/-- The value of `time.Now()`. -/
def World.now (w : World) : Int := w.clock w.clockReads

/-- The world after one reading of the clock. -/
def World.tick (w : World) : World := { w with clockReads := w.clockReads + 1 }

/-- The world after one call of the factory. -/
def World.made (w : World) : World := { w with factoryCalls := w.factoryCalls + 1 }

/-- The world after one call of the destroy callback on `x`. -/
def World.destroyed (w : World) (x : Conn) : World := { w with closeLog := w.closeLog ++ [x] }

/-- The method `channelPool.Close`: the guard is `conn != nil`, as in the source. -/
def channelPool.Close (c : channelPool) (conn : Conn) (w : World) :
    Res (Option error) × World :=
  if conn ≠ none then
    (.ok (some (.New rejectMsg)), w)
  else
    match c.close with
    | none => (.panic, w)
    | some g => (.ok (g w.closeLog.length conn), w.destroyed conn)

/-- The `for { select { ... } }` loop of `Get` on the channel `ch`, given the
entries still queued.  Returns the outcome, the entries left, and the world. -/
def getLoop (c : channelPool) (ch : Chan) :
    List idleConn → World → Res (Conn × Option error) × List idleConn × World
  | [], w =>
    -- nothing queued: a closed channel yields the nil pointer, an open one
    -- is not ready, so the `default` case runs
    if ch.closed then
      (.ok (none, some .ErrorClosed), [], w)
    else
      match c.factory with
      | none => (.panic, [], w)
      | some f =>
        let r := f w.factoryCalls
        match r.2 with
        | some err => (.ok (none, some err), [], w.made)
        | none => (.ok (r.1, none), [], w.made)
  | wrapConn :: rest, w =>
    if 0 < c.idleTimeout then
      if wrapConn.t + c.idleTimeout < w.now then
        match c.Close wrapConn.conn w.tick with
        | (.ok _, w2) => getLoop c ch rest w2
        | (.panic, w2) => (.panic, rest, w2)
        | (.hang, w2) => (.hang, rest, w2)
      else
        (.ok (wrapConn.conn, none), rest, w.tick)
    else
      (.ok (wrapConn.conn, none), rest, w)

/-- The method `channelPool.Get`. -/
def channelPool.Get (c : channelPool) (w : World) :
    Res (Conn × Option error) × channelPool × World :=
  match c.conns with
  | none => (.ok (none, some .ErrorClosed), c, w)
  | some ch =>
    let r := getLoop c ch ch.buf w
    (r.1, { c with conns := some { ch with buf := r.2.1 } }, r.2.2)

/-- The method `channelPool.Put`.  The entry, and so `time.Now()`, is
evaluated on entering the `select`, whether or not the send goes through. -/
def channelPool.Put (c : channelPool) (conn : Conn) (w : World) :
    Res (Option error) × channelPool × World :=
  if conn = none then
    (.ok (some (.New rejectMsg)), c, w)
  else
    match c.conns with
    | none =>
      let r := c.Close conn w
      (r.1, c, r.2)
    | some ch =>
      if ch.closed then
        (.panic, c, w.tick)
      else if ch.buf.length < ch.cap then
        (.ok none,
          { c with conns := some { ch with buf := ch.buf ++ [⟨conn, w.now⟩] } }, w.tick)
      else
        let r := c.Close conn w.tick
        (r.1, c, r.2)

/-- The loop `for wrapConn := range conns { closeFun(wrapConn.conn) }` of
`Release`; the results of `closeFun` are dropped. -/
def drain (closeFun : Option CloseFn) : List idleConn → World → Res Unit × World
  | [], w => (.ok (), w)
  | wrapConn :: rest, w =>
    match closeFun with
    | none => (.panic, w)
    | some _ => drain closeFun rest (w.destroyed wrapConn.conn)

/-- The method `channelPool.Release`. -/
def channelPool.Release (c : channelPool) (w : World) : Res Unit × channelPool × World :=
  let c1 : channelPool := { c with conns := none, factory := none, close := none }
  match c.conns with
  | none => (.ok (), c1, w)
  | some ch =>
    if ch.closed then
      (.panic, c1, w)
    else
      let r := drain c.close ch.buf w
      (r.1, c1, r.2)

/-- The method `channelPool.Len`: `len` of a nil channel is 0. -/
def channelPool.Len (c : channelPool) : Nat :=
  match c.conns with
  | none => 0
  | some ch => ch.buf.length

/-- The filling loop of `NewChannelPool`, with the number of rounds left. -/
def fillLoop : Nat → channelPool → World → Res (Option channelPool × Option error) × World
  | 0, c, w => (.ok (some c, none), w)
  | n + 1, c, w =>
    match c.factory with
    | none => (.panic, w)
    | some f =>
      let r := f w.factoryCalls
      match r.2 with
      | some err =>
        match c.Release w.made with
        | (.ok _, _, w2) =>
          (.ok (none, some (.Errorf ("factory is not able to fill the pool: " ++ err.Error))), w2)
        | (.panic, _, w2) => (.panic, w2)
        | (.hang, _, w2) => (.hang, w2)
      | none =>
        match c.conns with
        | none => (.hang, w.made.tick)
        | some ch =>
          if ch.closed then
            (.panic, w.made.tick)
          else if ch.buf.length < ch.cap then
            fillLoop n
              { c with conns := some { ch with buf := ch.buf ++ [⟨r.1, w.made.now⟩] } }
              w.made.tick
          else
            (.hang, w.made.tick)

/-- The function `NewChannelPool`.  After the capacity check it makes the
channel, which panics when `MaxCap` is above what `make` can allocate, and
then runs the filling loop. -/
def NewChannelPool (poolConfig : PoolConfig) (w : World) :
    Res (Option channelPool × Option error) × World :=
  if poolConfig.InitialCap < 0 ∨ poolConfig.MaxCap ≤ 0 ∨
      poolConfig.InitialCap > poolConfig.MaxCap then
    (.ok (none, some (.New "invalid capacity settings")), w)
  else if (w.chanLimit : Int) < poolConfig.MaxCap then
    (.panic, w)
  else
    fillLoop poolConfig.InitialCap.toNat
      { conns := some ⟨[], poolConfig.MaxCap.toNat, false⟩
        factory := poolConfig.Factory
        close := poolConfig.Close
        idleTimeout := poolConfig.IdleTimeout }
      w

/-- One call on the `Pool` interface. -/
inductive Op where
  | Get
  | Put (conn : Conn)
  | Close (conn : Conn)
  | Release
  | Len
  deriving DecidableEq, Repr

/-- What a call gave back. -/
inductive Ret where
  | get (r : Res (Conn × Option error))
  | err (r : Res (Option error))
  | unit (r : Res Unit)
  | len (n : Nat)
  deriving DecidableEq, Repr

/-- Perform one call.  After a panic the pool and world are what the call left. -/
def step (op : Op) (c : channelPool) (w : World) : Ret × channelPool × World :=
  match op with
  | .Get => let r := c.Get w; (.get r.1, r.2.1, r.2.2)
  | .Put conn => let r := c.Put conn w; (.err r.1, r.2.1, r.2.2)
  | .Close conn => let r := c.Close conn w; (.err r.1, c, r.2)
  | .Release => let r := c.Release w; (.unit r.1, r.2.1, r.2.2)
  | .Len => (.len c.Len, c, w)

/-- Perform a sequence of calls, one after the other. -/
def run : List Op → channelPool → World → channelPool × World
  | [], c, w => (c, w)
  | op :: ops, c, w => run ops (step op c w).2.1 (step op c w).2.2

/-! ## Predicates used to state the claims -/

/-- The channel of the pool, when there is one, has capacity `n` and holds at
most `n` entries. -/
def Bounded (n : Nat) (c : channelPool) : Prop :=
  ∀ ch, c.conns = some ch → ch.cap = n ∧ ch.buf.length ≤ n

/-- The factory yields pairwise distinct non-nil resources: two successful
calls never give the same resource, and a successful call never gives nil. -/
def DistinctFactory (f : FactoryFn) : Prop :=
  (∀ i j, (f i).2 = none → (f j).2 = none → (f i).1 = (f j).1 → i = j) ∧
  ∀ i, (f i).2 = none → (f i).1 ≠ none

/-- The resources of `L` are pairwise distinct, none is nil, and none is given
by a successful factory call numbered `k` or later. -/
def Fresh (f : FactoryFn) (k : Nat) (L : List Conn) : Prop :=
  L.Nodup ∧ ∀ y ∈ L, y ≠ none ∧ ∀ i, k ≤ i → (f i).2 = none → (f i).1 ≠ y

/-- The entries that `n` successful factory calls starting in world `w` put in
the buffer: the resource of the call and the clock reading taken for it. -/
def filled (f : FactoryFn) (w : World) (n : Nat) : List idleConn :=
  (List.range n).map (fun i => ⟨(f (w.factoryCalls + i)).1, w.clock (w.clockReads + i)⟩)

/-- Whether a caller holding the resources `held` may make the call: a non-nil
resource passed to `Put` or `Close` must be one it holds. -/
def mayCall (op : Op) (held : List Nat) : Bool :=
  match op with
  | .Put (some x) => decide (x ∈ held)
  | .Close (some x) => decide (x ∈ held)
  | _ => true

/-- The resources the caller holds after the call: a resource that `Get`
returned is added, a resource passed to `Put` or `Close` is given up. -/
def heldAfter (op : Op) (c : channelPool) (w : World) (held : List Nat) : List Nat :=
  match op with
  | .Get =>
    match (c.Get w).1 with
    | .ok (some x, none) => x :: held
    | _ => held
  | .Put (some x) => held.erase x
  | .Close (some x) => held.erase x
  | _ => held

/-- The caller passes each resource it holds to `Put` or `Close` at most once
along the sequence of calls. -/
def obeys : List Op → channelPool → World → List Nat → Bool
  | [], _, _, _ => true
  | op :: ops, c, w, held =>
    mayCall op held &&
      obeys ops (step op c w).2.1 (step op c w).2.2 (heldAfter op c w held)

/-- The state of an open pool next to a caller holding `held`: nothing but nil
was destroyed so far, and the idle resources together with the held ones are
`Fresh`. -/
def Tracked (f : FactoryFn) (c : channelPool) (w : World) (held : List Nat) : Prop :=
  ∃ ch, c.conns = some ch ∧ ch.closed = false ∧ c.factory = some f ∧
    (∀ x : Nat, some x ∉ w.closeLog) ∧
    Fresh f w.factoryCalls (ch.buf.map (fun e => e.conn) ++ held.map some)

/-- The state of a pool after `Release`: it has no channel, and no resource
was destroyed twice. -/
def Shut (c : channelPool) (w : World) : Prop :=
  c.conns = none ∧ ∀ x : Nat, w.closeLog.count (some x) ≤ 1

/-! ## Concrete data used to exercise the theorems -/

/-- The largest capacity of a channel of pointers on linux/amd64: the runtime
allows `2 ^ 48 - 96` bytes of 8-byte slots. -/
def exChanLimit : Nat := 35184372088820

/-- A clock whose readings are 0, 10, 20, ... -/
def exWorld : World := ⟨fun k => 10 * (k : Int), 0, 0, [], exChanLimit⟩

/-- A factory that always succeeds: its `k`-th call makes the resource `100 + k`. -/
def exFactory : FactoryFn := fun k => (some (100 + k), none)

/-- A destroy callback that always succeeds. -/
def exClose : CloseFn := fun _ _ => none

/-- The configuration `InitialCap = 1`, `MaxCap = 2`, no idle timeout. -/
def exConfig : PoolConfig := ⟨1, 2, some exFactory, some exClose, 0⟩

/-- The pool that `NewChannelPool exConfig exWorld` returns. -/
def exPool : channelPool := ⟨some ⟨[⟨some 100, 0⟩], 2, false⟩, some exFactory, some exClose, 0⟩

/-- The world after `NewChannelPool exConfig exWorld`. -/
def exWorld1 : World := ⟨fun k => 10 * (k : Int), 1, 1, [], exChanLimit⟩

/-- Two acquisitions, then three releases: the third finds the buffer full. -/
def exOps : List Op := [.Get, .Get, .Put (some 100), .Put (some 101), .Put (some 7)]

/-- A clock that reads 100, 101, 102, ... -/
def exLateWorld : World := ⟨fun k => 100 + (k : Int), 0, 0, [], exChanLimit⟩

/-- A pool with idle timeout 5 holding an entry stored at 0 and one stored at 97. -/
def exAgedPool : channelPool :=
  ⟨some ⟨[⟨some 1, 0⟩, ⟨some 2, 97⟩], 2, false⟩, some exFactory, some exClose, 5⟩

/-- A destroy callback whose first call fails. -/
def exFlakyClose : CloseFn := fun k _ => if k = 0 then some (.ext "broken pipe") else none

/-- The pool `exAgedPool` with the destroy callback `exFlakyClose`. -/
def exFlakyPool : channelPool :=
  ⟨some ⟨[⟨some 1, 0⟩, ⟨some 2, 97⟩], 2, false⟩, some exFactory, some exFlakyClose, 5⟩

/-- A caller that takes two resources, gives them back, offers a third one of
its own to the full pool, discards nil, shuts the pool down and goes on calling. -/
def exLife : List Op :=
  [.Get, .Get, .Put (some 100), .Put (some 101), .Put (some 7), .Close none, .Release,
    .Get, .Release]

/-- The pool of `exConfig` with its buffer filled up, and the world then. -/
def exFull : channelPool × World :=
  run [.Get, .Get, .Put (some 100), .Put (some 101)] exPool exWorld1

/-- The pool of `exConfig` after `Release`, and the world then. -/
def exShut : channelPool × World :=
  ((exPool.Release exWorld1).2.1, (exPool.Release exWorld1).2.2)

/-- A configuration whose `InitialCap` exceeds its `MaxCap`. -/
def exBadConfig : PoolConfig := ⟨3, 2, some exFactory, some exClose, 0⟩

/-- A configuration that passes the capacity check with `MaxCap` the largest
64-bit `int`, and a factory that always succeeds. -/
def exHugeConfig : PoolConfig := ⟨1, 9223372036854775807, some exFactory, some exClose, 0⟩

/-- A factory whose first two calls succeed and whose later calls fail. -/
def exFailFactory : FactoryFn :=
  fun k => if k < 2 then (some (100 + k), none) else (none, some (.ext "connection refused"))

/-- The configuration `InitialCap = 3`, `MaxCap = 5` with the factory `exFailFactory`. -/
def exFailConfig : PoolConfig := ⟨3, 5, some exFailFactory, some exClose, 0⟩

/-- The configuration `exFailConfig` with `MaxCap` the largest 64-bit `int`. -/
def exHugeFailConfig : PoolConfig :=
  ⟨3, 9223372036854775807, some exFailFactory, some exClose, 0⟩

/-- The pool of `exConfig` after its only idle entry was taken, and the world then. -/
def exEmpty : channelPool × World := run [.Get] exPool exWorld1

/-! ## Shared facts about the operations -/

theorem Close_some (c : channelPool) (x : Nat) (w : World) :
    c.Close (some x) w = (.ok (some (.New rejectMsg)), w) := by
  simp [channelPool.Close]

theorem Close_nil_of_close (c : channelPool) (g : CloseFn) (w : World) (hg : c.close = some g) :
    c.Close none w = (.ok (g w.closeLog.length none), w.destroyed none) := by
  simp [channelPool.Close, hg]

theorem Close_nil_of_nil (c : channelPool) (w : World) (hg : c.close = none) :
    c.Close none w = (.panic, w) := by
  simp [channelPool.Close, hg]

/-- The loop of `Get` only takes entries from the front of the queue. -/
theorem getLoop_suffix (c : channelPool) (ch : Chan) :
    ∀ (buf : List idleConn) (w : World), (getLoop c ch buf w).2.1 <:+ buf := by
  intro buf
  induction buf with
  | nil =>
    intro w
    unfold getLoop
    by_cases hc : ch.closed = true
    · simp [hc]
    · cases hfac : c.factory with
      | none => simp [hc]
      | some f => cases hr : (f w.factoryCalls).2 <;> simp [hc, hr]
  | cons e rest ih =>
    intro w
    unfold getLoop
    split
    · split
      · split
        · exact List.IsSuffix.trans (ih _) (List.suffix_cons e rest)
        · exact List.suffix_cons e rest
        · exact List.suffix_cons e rest
      · exact List.suffix_cons e rest
    · exact List.suffix_cons e rest

theorem getLoop_length_le (c : channelPool) (ch : Chan) (buf : List idleConn) (w : World) :
    (getLoop c ch buf w).2.1.length ≤ buf.length :=
  (getLoop_suffix c ch buf w).length_le

theorem Bounded_Len (n : Nat) (c : channelPool) (h : Bounded n c) : c.Len ≤ n := by
  unfold channelPool.Len
  split
  · exact Nat.zero_le n
  · next ch hch => exact (h ch hch).2

theorem Bounded_Get (n : Nat) (c : channelPool) (w : World) (h : Bounded n c) :
    Bounded n (c.Get w).2.1 := by
  unfold channelPool.Get
  split
  · exact h
  · next ch hch =>
    intro ch2 h2
    simp only [Option.some.injEq] at h2
    subst h2
    exact ⟨(h ch hch).1, le_trans (getLoop_length_le c ch ch.buf w) (h ch hch).2⟩

theorem Bounded_Put (n : Nat) (c : channelPool) (conn : Conn) (w : World) (h : Bounded n c) :
    Bounded n (c.Put conn w).2.1 := by
  unfold channelPool.Put
  split
  · exact h
  · split
    · exact h
    · next ch hch =>
      split
      · exact h
      · split
        · next hlt =>
          intro ch2 h2
          simp only [Option.some.injEq] at h2
          subst h2
          have hb := h ch hch
          refine ⟨hb.1, ?_⟩
          simp only [List.length_append, List.length_singleton]
          omega
        · exact h

theorem Bounded_Release (n : Nat) (c : channelPool) (w : World) :
    Bounded n (c.Release w).2.1 := by
  intro ch hch
  unfold channelPool.Release at hch
  split at hch
  · simp at hch
  · split at hch <;> simp at hch

theorem Bounded_step (n : Nat) (op : Op) (c : channelPool) (w : World) (h : Bounded n c) :
    Bounded n (step op c w).2.1 := by
  cases op with
  | Get => exact Bounded_Get n c w h
  | Put conn => exact Bounded_Put n c conn w h
  | Close conn => exact h
  | Release => exact Bounded_Release n c w
  | Len => exact h

theorem Bounded_run (n : Nat) (ops : List Op) :
    ∀ (c : channelPool) (w : World), Bounded n c → Bounded n (run ops c w).1 := by
  induction ops with
  | nil => intro c w h; exact h
  | cons op ops ih => intro c w h; exact ih _ _ (Bounded_step n op c w h)

theorem Bounded_fillLoop (N : Nat) :
    ∀ (n : Nat) (c : channelPool) (w w1 : World) (c1 : channelPool) (e : Option error),
      Bounded N c → fillLoop n c w = (.ok (some c1, e), w1) → Bounded N c1 := by
  intro n
  induction n with
  | zero =>
    intro c w w1 c1 e h hf
    simp only [fillLoop, Prod.mk.injEq, Res.ok.injEq, Option.some.injEq] at hf
    rw [← hf.1.1]
    exact h
  | succ n ih =>
    intro c w w1 c1 e h hf
    unfold fillLoop at hf
    cases hfac : c.factory with
    | none => simp [hfac] at hf
    | some f =>
      simp only [hfac] at hf
      cases hr : (f w.factoryCalls).2 with
      | some err =>
        simp only [hr] at hf
        rcases hrel : c.Release w.made with ⟨r, c2, w2⟩
        cases r <;> simp [hrel] at hf
      | none =>
        simp only [hr] at hf
        cases hch : c.conns with
        | none => simp [hch] at hf
        | some ch =>
          simp only [hch] at hf
          by_cases hcl : ch.closed = true
          · simp [hcl] at hf
          · by_cases hlt : ch.buf.length < ch.cap
            · simp only [hcl, hlt, if_true, if_false] at hf
              refine ih _ _ _ _ _ ?_ hf
              intro ch2 h2
              simp only [Option.some.injEq] at h2
              subst h2
              have hb := h ch hch
              refine ⟨hb.1, ?_⟩
              simp only [List.length_append, List.length_singleton]
              omega
            · simp [hcl, hlt] at hf

/-- When `NewChannelPool` returns a pool, the capacities passed the check, the
channel could be made, and the pool is what the filling loop returned. -/
theorem NewChannelPool_returns (poolConfig : PoolConfig) (w0 w1 : World) (c : channelPool)
    (e : Option error) (hnew : NewChannelPool poolConfig w0 = (.ok (some c, e), w1)) :
    (0 ≤ poolConfig.InitialCap ∧ 0 < poolConfig.MaxCap ∧
      poolConfig.InitialCap ≤ poolConfig.MaxCap) ∧
    poolConfig.MaxCap ≤ (w0.chanLimit : Int) ∧
    fillLoop poolConfig.InitialCap.toNat
      { conns := some ⟨[], poolConfig.MaxCap.toNat, false⟩
        factory := poolConfig.Factory
        close := poolConfig.Close
        idleTimeout := poolConfig.IdleTimeout } w0 = (.ok (some c, e), w1) := by
  unfold NewChannelPool at hnew
  by_cases hv : poolConfig.InitialCap < 0 ∨ poolConfig.MaxCap ≤ 0 ∨
      poolConfig.InitialCap > poolConfig.MaxCap
  · simp [hv] at hnew
  · rw [if_neg hv] at hnew
    by_cases hbig : (w0.chanLimit : Int) < poolConfig.MaxCap
    · simp [hbig] at hnew
    · rw [if_neg hbig] at hnew
      exact ⟨by omega, by omega, hnew⟩

/-- A pool that `NewChannelPool` returns has a channel of capacity `MaxCap`,
and `MaxCap` is positive. -/
theorem NewChannelPool_Bounded (poolConfig : PoolConfig) (w0 w1 : World) (c : channelPool)
    (e : Option error) (hnew : NewChannelPool poolConfig w0 = (.ok (some c, e), w1)) :
    0 < poolConfig.MaxCap ∧ Bounded poolConfig.MaxCap.toNat c := by
  obtain ⟨hv, _, hfill⟩ := NewChannelPool_returns poolConfig w0 w1 c e hnew
  refine ⟨hv.2.1, Bounded_fillLoop _ _ _ _ _ _ _ ?_ hfill⟩
  intro ch hch
  simp only [Option.some.injEq] at hch
  subst hch
  exact ⟨rfl, Nat.zero_le _⟩

/-! ### The loop of `Get` -/

/-- With a destroy callback in place `Close` returns, and it touches neither
the clock nor the count of factory calls. -/
theorem Close_returns (c : channelPool) (g : CloseFn) (conn : Conn) (w : World)
    (hg : c.close = some g) :
    ∃ r w2, c.Close conn w = (.ok r, w2) ∧ w2.clock = w.clock ∧
      w2.clockReads = w.clockReads ∧ w2.factoryCalls = w.factoryCalls := by
  cases conn with
  | none => exact ⟨_, _, Close_nil_of_close c g w hg, rfl, rfl, rfl⟩
  | some x => exact ⟨_, _, Close_some c x w, rfl, rfl, rfl⟩

/-- With a positive idle timeout, the loop of `Get` either returns the
resource of the entry at some position `i`, which was not stale at the clock
reading of its own check, and leaves the entries after it, or it has used up
the queue and returns what one call of the factory gave. -/
theorem getLoop_not_stale (c : channelPool) (ch : Chan) (f : FactoryFn) (g : CloseFn)
    (hopen : ch.closed = false) (hf : c.factory = some f) (hg : c.close = some g)
    (ht : 0 < c.idleTimeout) :
    ∀ (buf : List idleConn) (w : World),
      (∃ i e, buf[i]? = some e ∧
        (getLoop c ch buf w).1 = .ok (e.conn, none) ∧
        w.clock (w.clockReads + i) ≤ e.t + c.idleTimeout ∧
        (getLoop c ch buf w).2.1 = buf.drop (i + 1) ∧
        (getLoop c ch buf w).2.2.factoryCalls = w.factoryCalls) ∨
      ((getLoop c ch buf w).2.2.factoryCalls = w.factoryCalls + 1 ∧
        (getLoop c ch buf w).2.1 = [] ∧
        (((f w.factoryCalls).2 = none ∧
            (getLoop c ch buf w).1 = .ok ((f w.factoryCalls).1, none)) ∨
          ∃ err, (f w.factoryCalls).2 = some err ∧
            (getLoop c ch buf w).1 = .ok (none, some err))) := by
  intro buf
  induction buf with
  | nil =>
    intro w
    right
    cases hr : (f w.factoryCalls).2 with
    | none => simp [getLoop, hopen, hf, hr, World.made]
    | some err => simp [getLoop, hopen, hf, hr, World.made]
  | cons e rest ih =>
    intro w
    by_cases hs : e.t + c.idleTimeout < w.now
    · obtain ⟨r, w2, hcl, hk, hn, hm⟩ := Close_returns c g e.conn w.tick hg
      have hloop : getLoop c ch (e :: rest) w = getLoop c ch rest w2 := by
        simp [getLoop, ht, hs, hcl]
      have hn2 : w2.clockReads = w.clockReads + 1 := by rw [hn]; rfl
      have hm2 : w2.factoryCalls = w.factoryCalls := by rw [hm]; rfl
      have hk2 : w2.clock = w.clock := by rw [hk]; rfl
      rw [hloop]
      rcases ih w2 with ⟨i, e2, hi, hres, hfresh, hrest, hcalls⟩ | ⟨hcalls, hrest, hres⟩
      · left
        refine ⟨i + 1, e2, by simpa using hi, hres, ?_, by simpa using hrest, ?_⟩
        · rw [hk2, hn2] at hfresh
          have : w.clockReads + (i + 1) = w.clockReads + 1 + i := by omega
          rw [this]
          exact hfresh
        · rw [hcalls, hm2]
      · right
        rw [hm2] at hcalls hres
        exact ⟨hcalls, hrest, hres⟩
    · left
      refine ⟨0, e, by simp, by simp [getLoop, ht, hs], ?_, by simp [getLoop, ht, hs], ?_⟩
      · have : w.now = w.clock (w.clockReads + 0) := rfl
        omega
      · simp [getLoop, ht, hs, World.tick]

/-! ### The draining loop of `Release` -/

/-- With a destroy callback in place, the draining loop calls it on the
resource of every entry, in queue order, and returns. -/
theorem drain_of_close (g : CloseFn) :
    ∀ (buf : List idleConn) (w : World),
      drain (some g) buf w
        = (.ok (), { w with closeLog := w.closeLog ++ buf.map (fun e => e.conn) }) := by
  intro buf
  induction buf with
  | nil => intro w; simp [drain]
  | cons e rest ih => intro w; simp [drain, ih, World.destroyed]

/-! ### A pool without a channel stays without one -/

theorem Release_conns (c : channelPool) (w : World) : (c.Release w).2.1.conns = none := by
  unfold channelPool.Release
  cases hch : c.conns with
  | none => rfl
  | some ch => by_cases hcl : ch.closed = true <;> simp [hcl]

theorem Get_of_nil (c : channelPool) (w : World) (h : c.conns = none) :
    c.Get w = (.ok (none, some .ErrorClosed), c, w) := by
  simp [channelPool.Get, h]

theorem Put_conns_of_nil (c : channelPool) (conn : Conn) (w : World) (h : c.conns = none) :
    (c.Put conn w).2.1 = c := by
  unfold channelPool.Put
  by_cases hn : conn = none <;> simp [hn, h]

theorem step_conns_of_nil (op : Op) (c : channelPool) (w : World) (h : c.conns = none) :
    (step op c w).2.1.conns = none := by
  cases op with
  | Get => simp [step, Get_of_nil c w h, h]
  | Put conn => simp [step, Put_conns_of_nil c conn w h, h]
  | Close conn => exact h
  | Release => exact Release_conns c w
  | Len => exact h

theorem run_conns_of_nil (ops : List Op) :
    ∀ (c : channelPool) (w : World), c.conns = none → (run ops c w).1.conns = none := by
  induction ops with
  | nil => intro c w h; exact h
  | cons op ops ih => intro c w h; exact ih _ _ (step_conns_of_nil op c w h)

/-! ### No resource is destroyed twice -/

theorem Fresh_of_subperm {f : FactoryFn} {k : Nat} {L M : List Conn}
    (h : M.Subperm L) (hL : Fresh f k L) : Fresh f k M := by
  obtain ⟨l, hp, hs⟩ := h
  refine ⟨hp.nodup_iff.mp (hL.1.sublist hs), ?_⟩
  intro y hy
  exact hL.2 y (hs.subset (hp.mem_iff.mpr hy))

theorem Fresh_succ {f : FactoryFn} {k : Nat} {L : List Conn} (hL : Fresh f k L) :
    Fresh f (k + 1) L :=
  ⟨hL.1, fun y hy => ⟨(hL.2 y hy).1, fun i hi => (hL.2 y hy).2 i (by omega)⟩⟩

theorem Fresh_cons_made {f : FactoryFn} {k : Nat} {L : List Conn} (hd : DistinctFactory f)
    (hk : (f k).2 = none) (hL : Fresh f k L) : Fresh f (k + 1) ((f k).1 :: L) := by
  refine ⟨List.nodup_cons.mpr ⟨?_, hL.1⟩, ?_⟩
  · intro hmem
    exact (hL.2 _ hmem).2 k (le_refl k) hk rfl
  · intro y hy
    rcases List.mem_cons.mp hy with rfl | hy
    · refine ⟨hd.2 k hk, ?_⟩
      intro i hi hin heq
      have := hd.1 i k hin hk heq
      omega
    · exact ⟨(hL.2 y hy).1, fun i hi => (hL.2 y hy).2 i (by omega)⟩

/-- When no queued entry holds nil, the loop of `Get` calls the destroy
callback not at all; it returns the resource of a queued entry and leaves
entries that came after it, or it empties the queue and calls the factory once. -/
theorem getLoop_tracked (c : channelPool) (ch : Chan) (f : FactoryFn)
    (hopen : ch.closed = false) (hf : c.factory = some f) :
    ∀ (buf : List idleConn) (w : World), (∀ e ∈ buf, e.conn ≠ none) →
      (getLoop c ch buf w).2.2.closeLog = w.closeLog ∧
      ((∃ e, (getLoop c ch buf w).1 = .ok (e.conn, none) ∧
          (e :: (getLoop c ch buf w).2.1).Sublist buf ∧
          (getLoop c ch buf w).2.2.factoryCalls = w.factoryCalls) ∨
        ((getLoop c ch buf w).2.1 = [] ∧
          (getLoop c ch buf w).2.2.factoryCalls = w.factoryCalls + 1 ∧
          (((f w.factoryCalls).2 = none ∧
              (getLoop c ch buf w).1 = .ok ((f w.factoryCalls).1, none)) ∨
            ∃ err, (f w.factoryCalls).2 = some err ∧
              (getLoop c ch buf w).1 = .ok (none, some err)))) := by
  intro buf
  induction buf with
  | nil =>
    intro w _
    cases hr : (f w.factoryCalls).2 with
    | none => simp [getLoop, hopen, hf, hr, World.made]
    | some err => simp [getLoop, hopen, hf, hr, World.made]
  | cons e rest ih =>
    intro w hnn
    by_cases ht : 0 < c.idleTimeout
    · by_cases hs : e.t + c.idleTimeout < w.now
      · obtain ⟨x, hx⟩ := Option.ne_none_iff_exists'.mp (hnn e (List.mem_cons_self e rest))
        have hloop : getLoop c ch (e :: rest) w = getLoop c ch rest w.tick := by
          simp [getLoop, ht, hs, hx, Close_some]
        rw [hloop]
        obtain ⟨hlog, hcases⟩ := ih w.tick (fun e he => hnn e (List.mem_cons_of_mem _ he))
        refine ⟨hlog, ?_⟩
        rcases hcases with ⟨e2, hres, hsub, hcalls⟩ | h
        · left
          exact ⟨e2, hres, hsub.trans (List.sublist_cons_self e rest), hcalls⟩
        · right
          exact h
      · refine ⟨by simp [getLoop, ht, hs, World.tick], Or.inl ⟨e, ?_, ?_, ?_⟩⟩ <;>
          simp [getLoop, ht, hs, World.tick]
    · refine ⟨by simp [getLoop, ht], Or.inl ⟨e, ?_, ?_, ?_⟩⟩ <;> simp [getLoop, ht]

theorem drain_log (closeFun : Option CloseFn) (buf : List idleConn) (w : World) :
    (drain closeFun buf w).2.closeLog = w.closeLog ∨
    (drain closeFun buf w).2.closeLog = w.closeLog ++ buf.map (fun e => e.conn) := by
  cases closeFun with
  | none => cases buf <;> simp [drain]
  | some g => right; simp [drain_of_close]

theorem Tracked_Get (f : FactoryFn) (hd : DistinctFactory f) (c : channelPool) (w : World)
    (held : List Nat) (h : Tracked f c w held) :
    Tracked f (c.Get w).2.1 (c.Get w).2.2 (heldAfter .Get c w held) := by
  obtain ⟨ch, hch, hopen, hf, hlog, hfresh⟩ := h
  have hget : c.Get w = ((getLoop c ch ch.buf w).1,
      { c with conns := some { ch with buf := (getLoop c ch ch.buf w).2.1 } },
      (getLoop c ch ch.buf w).2.2) := by
    simp [channelPool.Get, hch]
  have hnn : ∀ e ∈ ch.buf, e.conn ≠ none := by
    intro e he
    exact (hfresh.2 e.conn (List.mem_append_left _ (List.mem_map_of_mem _ he))).1
  obtain ⟨hlog2, hcases⟩ := getLoop_tracked c ch f hopen hf ch.buf w hnn
  unfold heldAfter
  rw [hget]
  refine ⟨_, rfl, hopen, hf, ?_, ?_⟩
  · intro x
    show some x ∉ (getLoop c ch ch.buf w).2.2.closeLog
    rw [hlog2]
    exact hlog x
  · show Fresh f (getLoop c ch ch.buf w).2.2.factoryCalls
      ((getLoop c ch ch.buf w).2.1.map (fun e => e.conn) ++ List.map some _)
    rcases hcases with ⟨e, hres, hsub, hcalls⟩ | ⟨hrest, hcalls, hres⟩
    · rw [hcalls]
      have hsub2 : (e.conn :: (getLoop c ch ch.buf w).2.1.map (fun e => e.conn)
            ++ held.map some).Sublist (ch.buf.map (fun e => e.conn) ++ held.map some) :=
        List.Sublist.append (by simpa using hsub.map (fun e => e.conn)) (List.Sublist.refl _)
      have hfr := Fresh_of_subperm hsub2.subperm hfresh
      obtain ⟨x, hx⟩ := Option.ne_none_iff_exists'.mp (hfr.2 e.conn (by simp)).1
      simp only [hres, hx]
      refine Fresh_of_subperm ?_ hfr
      rw [hx]
      exact (List.perm_middle).subperm
    · rw [hcalls, hrest]
      have hheld : Fresh f w.factoryCalls (held.map some) :=
        Fresh_of_subperm (List.sublist_append_right _ _).subperm hfresh
      rcases hres with ⟨hok, hres⟩ | ⟨err, herr, hres⟩
      · have hnew := Fresh_cons_made hd hok hheld
        obtain ⟨x, hx⟩ := Option.ne_none_iff_exists'.mp (hd.2 _ hok)
        simp only [hres, hx]
        rw [hx] at hnew
        simpa using hnew
      · simp only [hres]
        simpa using Fresh_succ hheld

theorem Tracked_Put (f : FactoryFn) (c : channelPool) (w : World) (held : List Nat) (x : Nat)
    (hx : x ∈ held) (h : Tracked f c w held) :
    Tracked f (c.Put (some x) w).2.1 (c.Put (some x) w).2.2 (held.erase x) := by
  obtain ⟨ch, hch, hopen, hf, hlog, hfresh⟩ := h
  have hperm : (held.map some).Perm (some x :: (held.erase x).map some) := by
    simpa using (List.perm_cons_erase hx).map some
  by_cases hroom : ch.buf.length < ch.cap
  · have hput : c.Put (some x) w = (.ok none,
        { c with conns := some { ch with buf := ch.buf ++ [⟨some x, w.now⟩] } }, w.tick) := by
      simp [channelPool.Put, hch, hopen, hroom]
    rw [hput]
    refine ⟨_, rfl, hopen, hf, hlog, ?_⟩
    refine Fresh_of_subperm (List.Perm.subperm ?_) hfresh
    simp only [List.map_append, List.map_cons, List.map_nil, List.append_assoc,
      List.singleton_append]
    exact (List.Perm.append_left _ hperm).symm
  · have hput : c.Put (some x) w = (.ok (some (.New rejectMsg)), c, w.tick) := by
      simp [channelPool.Put, hch, hopen, hroom, Close_some]
    rw [hput]
    refine ⟨ch, hch, hopen, hf, hlog, ?_⟩
    refine Fresh_of_subperm (List.Sublist.subperm ?_) hfresh
    exact List.Sublist.append (List.Sublist.refl _) ((List.erase_sublist x held).map some)

theorem count_le_one_of_nodup :
    ∀ (l : List Conn) (y : Conn), l.Nodup → l.count y ≤ 1 := by
  intro l y
  induction l with
  | nil => intro _; simp
  | cons b l ih =>
    intro h
    obtain ⟨hb, hl⟩ := List.nodup_cons.mp h
    rw [List.count_cons]
    by_cases hby : b = y
    · subst hby
      rw [List.count_eq_zero.mpr hb]
      simp
    · have := ih hl
      simp [hby, this]

theorem Shut_of_Tracked_Release (f : FactoryFn) (c : channelPool) (w : World) (held : List Nat)
    (h : Tracked f c w held) : Shut (c.Release w).2.1 (c.Release w).2.2 := by
  obtain ⟨ch, hch, hopen, hf, hlog, hfresh⟩ := h
  refine ⟨Release_conns c w, ?_⟩
  intro x
  have hrel : (c.Release w).2.2 = (drain c.close ch.buf w).2 := by
    simp [channelPool.Release, hch, hopen]
  rw [hrel]
  have h0 : w.closeLog.count (some x) = 0 := List.count_eq_zero.mpr (hlog x)
  rcases drain_log c.close ch.buf w with hl | hl
  · rw [hl, h0]; exact Nat.zero_le 1
  · rw [hl, List.count_append, h0, Nat.zero_add]
    have hnd : (ch.buf.map (fun e => e.conn)).Nodup :=
      hfresh.1.sublist (List.sublist_append_left _ _)
    exact count_le_one_of_nodup _ (some x) hnd

theorem Shut_step (op : Op) (c : channelPool) (w : World) (h : Shut c w) :
    Shut (step op c w).2.1 (step op c w).2.2 := by
  obtain ⟨hch, hcount⟩ := h
  refine ⟨step_conns_of_nil op c w hch, ?_⟩
  cases op with
  | Get => simpa [step, Get_of_nil c w hch] using hcount
  | Put conn =>
    cases conn with
    | none => simpa [step, channelPool.Put] using hcount
    | some x => simpa [step, channelPool.Put, hch, Close_some] using hcount
  | Close conn =>
    cases conn with
    | none =>
      cases hg : c.close with
      | none => simpa [step, Close_nil_of_nil c w hg] using hcount
      | some g => simpa [step, Close_nil_of_close c g w hg, World.destroyed] using hcount
    | some x => simpa [step, Close_some] using hcount
  | Release => simpa [step, channelPool.Release, hch] using hcount
  | Len => exact hcount

theorem Tracked_step (f : FactoryFn) (hd : DistinctFactory f) (op : Op) (c : channelPool)
    (w : World) (held : List Nat) (hmay : mayCall op held = true) (h : Tracked f c w held) :
    Tracked f (step op c w).2.1 (step op c w).2.2 (heldAfter op c w held) ∨
    Shut (step op c w).2.1 (step op c w).2.2 := by
  cases op with
  | Get => exact Or.inl (Tracked_Get f hd c w held h)
  | Put conn =>
    cases conn with
    | none => left; simpa [step, channelPool.Put, heldAfter] using h
    | some x =>
      left
      have hx : x ∈ held := by simpa [mayCall] using hmay
      exact Tracked_Put f c w held x hx h
  | Close conn =>
    obtain ⟨ch, hch, hopen, hf, hlog, hfresh⟩ := h
    cases conn with
    | none =>
      left
      cases hg : c.close with
      | none =>
        simp only [step, Close_nil_of_nil c w hg, heldAfter]
        exact ⟨ch, hch, hopen, hf, hlog, hfresh⟩
      | some g =>
        simp only [step, Close_nil_of_close c g w hg, heldAfter]
        refine ⟨ch, hch, hopen, hf, ?_, hfresh⟩
        intro x
        simpa [World.destroyed] using hlog x
    | some x =>
      left
      simp only [step, Close_some, heldAfter]
      refine ⟨ch, hch, hopen, hf, hlog, ?_⟩
      refine Fresh_of_subperm (List.Sublist.subperm ?_) hfresh
      exact List.Sublist.append (List.Sublist.refl _) ((List.erase_sublist x held).map some)
  | Release => exact Or.inr (Shut_of_Tracked_Release f c w held h)
  | Len => exact Or.inl h

theorem Shut_run (ops : List Op) :
    ∀ (c : channelPool) (w : World), Shut c w → Shut (run ops c w).1 (run ops c w).2 := by
  induction ops with
  | nil => intro c w h; exact h
  | cons op ops ih => intro c w h; exact ih _ _ (Shut_step op c w h)

theorem Tracked_run (f : FactoryFn) (hd : DistinctFactory f) (ops : List Op) :
    ∀ (c : channelPool) (w : World) (held : List Nat), Tracked f c w held →
      obeys ops c w held = true →
      ∀ x : Nat, (run ops c w).2.closeLog.count (some x) ≤ 1 := by
  induction ops with
  | nil =>
    intro c w held h _ x
    obtain ⟨ch, hch, hopen, hf, hlog, hfresh⟩ := h
    simp [run, List.count_eq_zero.mpr (hlog x)]
  | cons op ops ih =>
    intro c w held h hob x
    simp only [obeys, Bool.and_eq_true] at hob
    rcases Tracked_step f hd op c w held hob.1 h with ht | hs
    · exact ih _ _ _ ht hob.2 x
    · exact (Shut_run ops _ _ hs).2 x

theorem Tracked_fillLoop (f : FactoryFn) (hd : DistinctFactory f) (held : List Nat) :
    ∀ (n : Nat) (c : channelPool) (w w1 : World) (c1 : channelPool) (e : Option error),
      Tracked f c w held → fillLoop n c w = (.ok (some c1, e), w1) →
      Tracked f c1 w1 held := by
  intro n
  induction n with
  | zero =>
    intro c w w1 c1 e h hfill
    simp only [fillLoop, Prod.mk.injEq, Res.ok.injEq, Option.some.injEq] at hfill
    rw [← hfill.1.1, ← hfill.2]
    exact h
  | succ n ih =>
    intro c w w1 c1 e h hfill
    obtain ⟨ch, hch, hopen, hf, hlog, hfresh⟩ := h
    unfold fillLoop at hfill
    simp only [hf] at hfill
    cases hr : (f w.factoryCalls).2 with
    | some err =>
      simp only [hr] at hfill
      rcases hrel : c.Release w.made with ⟨r, c2, w2⟩
      cases r <;> simp [hrel] at hfill
    | none =>
      simp only [hr, hch, hopen] at hfill
      by_cases hlt : ch.buf.length < ch.cap
      · simp only [hlt, if_true, Bool.false_eq_true, if_false] at hfill
        refine ih _ _ _ _ _ ?_ hfill
        refine ⟨_, rfl, rfl, rfl, hlog, ?_⟩
        have hnew := Fresh_cons_made hd hr hfresh
        refine Fresh_of_subperm (List.Perm.subperm ?_) hnew
        simp only [List.map_append, List.map_cons, List.map_nil, List.append_assoc,
          List.singleton_append]
        exact List.perm_middle
      · simp [hlt] at hfill

/-! ### The filling loop of `NewChannelPool` -/

theorem filled_succ (f : FactoryFn) (w : World) (n : Nat) :
    filled f w (n + 1) = ⟨(f w.factoryCalls).1, w.made.now⟩ :: filled f w.made.tick n := by
  simp only [filled, List.range_succ_eq_map, List.map_cons, List.map_map]
  refine congrArg₂ _ rfl ?_
  apply List.map_congr_left
  intro i _
  simp only [Function.comp_apply, World.made, World.tick, Nat.succ_eq_add_one]
  rw [Nat.add_assoc, Nat.add_assoc, Nat.add_comm 1 i]

/-- The filling loop when the next `n` factory calls succeed and the channel has
room for them: it returns the pool with the `n` new entries at the tail. -/
theorem fillLoop_ok (f : FactoryFn) :
    ∀ (n : Nat) (c : channelPool) (w : World) (ch : Chan),
      c.conns = some ch → ch.closed = false → c.factory = some f →
      ch.buf.length + n ≤ ch.cap →
      (∀ i, i < n → (f (w.factoryCalls + i)).2 = none) →
      fillLoop n c w
        = (.ok (some { c with conns := some { ch with buf := ch.buf ++ filled f w n } }, none),
            { w with factoryCalls := w.factoryCalls + n, clockReads := w.clockReads + n }) := by
  intro n
  induction n with
  | zero =>
    intro c w ch hch hopen hf hcap hsucc
    simp [fillLoop, filled, ← hch]
  | succ n ih =>
    intro c w ch hch hopen hf hcap hsucc
    obtain ⟨conns, fac, cl, tmo⟩ := c
    obtain ⟨buf, cap, closed⟩ := ch
    simp only at hch hopen hf hcap
    subst hch hopen hf
    have h0 : (f w.factoryCalls).2 = none := by simpa using hsucc 0 (Nat.succ_pos n)
    have hlt : buf.length < cap := by omega
    unfold fillLoop
    simp only [h0, hlt, if_true, Bool.false_eq_true, if_false]
    refine (ih _ _ _ rfl rfl rfl ?_ ?_).trans ?_
    · simp only [List.length_append, List.length_singleton]; omega
    · intro i hi
      have := hsucc (i + 1) (by omega)
      have he : w.made.tick.factoryCalls + i = w.factoryCalls + (i + 1) := by
        simp only [World.made, World.tick]; omega
      rw [he]; exact this
    · rw [filled_succ]
      simp only [List.append_assoc, List.singleton_append, World.made, World.tick,
        Prod.mk.injEq, Res.ok.injEq, true_and, World.mk.injEq, and_true]
      omega

/-- The filling loop when the next `k` factory calls succeed and the one after
them fails with `err`, with rounds left for it: the loop stops there, the
destroy callback is called on every queued resource, and the wrapped error is
returned without a pool. -/
theorem fillLoop_fail (f : FactoryFn) (g : CloseFn) (err : error) :
    ∀ (k n : Nat) (c : channelPool) (w : World) (ch : Chan),
      k < n → c.conns = some ch → ch.closed = false → c.factory = some f →
      c.close = some g → ch.buf.length + k ≤ ch.cap →
      (∀ i, i < k → (f (w.factoryCalls + i)).2 = none) →
      (f (w.factoryCalls + k)).2 = some err →
      fillLoop n c w
        = (.ok (none, some (.Errorf ("factory is not able to fill the pool: " ++ err.Error))),
            { w with
              factoryCalls := w.factoryCalls + k + 1
              clockReads := w.clockReads + k
              closeLog := w.closeLog ++ (ch.buf ++ filled f w k).map (fun e => e.conn) }) := by
  intro k
  induction k with
  | zero =>
    intro n c w ch hkn hch hopen hf hg hcap hsucc hfail
    obtain ⟨m, rfl⟩ : ∃ m, n = m + 1 := ⟨n - 1, by omega⟩
    have hfail0 : (f w.factoryCalls).2 = some err := by simpa using hfail
    have hrel : c.Release w.made
        = (.ok (), { c with conns := none, factory := none, close := none },
            { w.made with closeLog := w.made.closeLog ++ ch.buf.map (fun e => e.conn) }) := by
      simp [channelPool.Release, hch, hopen, hg, drain_of_close]
    unfold fillLoop
    simp only [hf, hfail0, hrel]
    simp [filled, World.made]
  | succ k ih =>
    intro n c w ch hkn hch hopen hf hg hcap hsucc hfail
    obtain ⟨m, rfl⟩ : ∃ m, n = m + 1 := ⟨n - 1, by omega⟩
    obtain ⟨conns, fac, cl, tmo⟩ := c
    obtain ⟨buf, cap, closed⟩ := ch
    simp only at hch hopen hf hg hcap
    subst hch hopen hf hg
    have h0 : (f w.factoryCalls).2 = none := by simpa using hsucc 0 (Nat.succ_pos k)
    have hlt : buf.length < cap := by omega
    unfold fillLoop
    simp only [h0, hlt, if_true, Bool.false_eq_true, if_false]
    refine (ih m _ _ _ (by omega) rfl rfl rfl rfl ?_ ?_ ?_).trans ?_
    · simp only [List.length_append, List.length_singleton]; omega
    · intro i hi
      have := hsucc (i + 1) (by omega)
      have he : w.made.tick.factoryCalls + i = w.factoryCalls + (i + 1) := by
        simp only [World.made, World.tick]; omega
      rw [he]; exact this
    · have he : w.made.tick.factoryCalls + k = w.factoryCalls + (k + 1) := by
        simp only [World.made, World.tick]; omega
      rw [he]; exact hfail
    · rw [filled_succ]
      simp only [List.append_assoc, List.singleton_append, World.made, World.tick,
        Prod.mk.injEq, World.mk.injEq, true_and, and_true]
      omega

/-! ## The claims -/

/-- C1: on a pool returned by `NewChannelPool`, after every finite sequence of
`Get`, `Put`, `Close`, `Release` and `Len` calls, `Len()` is at most `MaxCap`;
and a `Put` on a pool whose buffer already holds `MaxCap` entries leaves the
pool as it was, so `Len()` is still `MaxCap`. -/
theorem Len_le_MaxCap (poolConfig : PoolConfig) (w0 w1 : World) (c : channelPool)
    (hnew : NewChannelPool poolConfig w0 = (.ok (some c, none), w1)) (ops : List Op) :
    ((run ops c w1).1.Len : Int) ≤ poolConfig.MaxCap ∧
    ∀ conn : Conn, ((run ops c w1).1.Len : Int) = poolConfig.MaxCap →
      ((run ops c w1).1.Put conn (run ops c w1).2).2.1 = (run ops c w1).1 ∧
      ((((run ops c w1).1.Put conn (run ops c w1).2).2.1.Len : Nat) : Int)
        = poolConfig.MaxCap := by
  obtain ⟨hpos, hb⟩ := NewChannelPool_Bounded poolConfig w0 w1 c none hnew
  have hr := Bounded_run poolConfig.MaxCap.toNat ops c w1 hb
  generalize (run ops c w1).1 = p at hr ⊢
  generalize (run ops c w1).2 = w at hr ⊢
  have hlen := Bounded_Len _ p hr
  refine ⟨by omega, ?_⟩
  intro conn hfull
  have hsame : (p.Put conn w).2.1 = p := by
    unfold channelPool.Put
    split
    · rfl
    · split
      · rfl
      · next ch hch =>
        split
        · rfl
        · split
          · next hlt =>
            exfalso
            have hc := hr ch hch
            have : p.Len = ch.buf.length := by simp [channelPool.Len, hch]
            omega
          · rfl
  rw [hsame]
  exact ⟨rfl, hfull⟩

/-- Witness for C1: the pool of `exConfig`, after two `Get`s and three `Put`s. -/
theorem Len_le_MaxCap_witness :
    NewChannelPool exConfig exWorld = (.ok (some exPool, none), exWorld1) ∧
    (((run exOps exPool exWorld1).1.Len : Int) ≤ exConfig.MaxCap ∧
    ∀ conn : Conn, ((run exOps exPool exWorld1).1.Len : Int) = exConfig.MaxCap →
      ((run exOps exPool exWorld1).1.Put conn (run exOps exPool exWorld1).2).2.1
        = (run exOps exPool exWorld1).1 ∧
      ((((run exOps exPool exWorld1).1.Put conn (run exOps exPool exWorld1).2).2.1.Len : Nat)
        : Int) = exConfig.MaxCap) :=
  ⟨rfl, Len_le_MaxCap exConfig exWorld exWorld1 exPool rfl exOps⟩

/-- C2: once `Release` has been called, whatever sequence of `Get`, `Put`,
`Close`, `Release` and `Len` calls follows, the next `Get` returns a nil
resource with `ErrorClosed`, and the count of factory calls does not move. -/
theorem Get_after_Release (c : channelPool) (w : World) (ops : List Op) :
    ((run ops (c.Release w).2.1 (c.Release w).2.2).1.Get
        (run ops (c.Release w).2.1 (c.Release w).2.2).2).1
      = .ok (none, some .ErrorClosed) ∧
    ((run ops (c.Release w).2.1 (c.Release w).2.2).1.Get
        (run ops (c.Release w).2.1 (c.Release w).2.2).2).2.2.factoryCalls
      = (run ops (c.Release w).2.1 (c.Release w).2.2).2.factoryCalls := by
  have h := run_conns_of_nil ops (c.Release w).2.1 (c.Release w).2.2 (Release_conns c w)
  rw [Get_of_nil _ _ h]
  exact ⟨rfl, rfl⟩

/-- C3: on an open pool with a positive idle timeout, `Get` never hands out the
resource of an idle entry that was stale when it was checked.  Either the
resource comes from the entry at some position `i` of the buffer, whose
timestamp `t` satisfies `now ≤ t + idleTimeout` for the clock reading `now` of
its check (the reading number `i` of this call), the entries up to it leave the
buffer and the factory is not called; or the buffer is used up and `Get`
returns the outcome of one fresh call of the factory. -/
theorem Get_not_stale (c : channelPool) (w : World) (ch : Chan) (f : FactoryFn) (g : CloseFn)
    (hch : c.conns = some ch) (hopen : ch.closed = false) (hf : c.factory = some f)
    (hg : c.close = some g) (ht : 0 < c.idleTimeout) :
    (∃ i e, ch.buf[i]? = some e ∧
      (c.Get w).1 = .ok (e.conn, none) ∧
      w.clock (w.clockReads + i) ≤ e.t + c.idleTimeout ∧
      (c.Get w).2.1.conns = some { ch with buf := ch.buf.drop (i + 1) } ∧
      (c.Get w).2.2.factoryCalls = w.factoryCalls) ∨
    ((c.Get w).2.2.factoryCalls = w.factoryCalls + 1 ∧
      (c.Get w).2.1.conns = some { ch with buf := [] } ∧
      (((f w.factoryCalls).2 = none ∧ (c.Get w).1 = .ok ((f w.factoryCalls).1, none)) ∨
        ∃ err, (f w.factoryCalls).2 = some err ∧ (c.Get w).1 = .ok (none, some err))) := by
  have hget : c.Get w = ((getLoop c ch ch.buf w).1,
      { c with conns := some { ch with buf := (getLoop c ch ch.buf w).2.1 } },
      (getLoop c ch ch.buf w).2.2) := by
    simp [channelPool.Get, hch]
  rw [hget]
  rcases getLoop_not_stale c ch f g hopen hf hg ht ch.buf w with
    ⟨i, e, hi, hres, hfresh, hrest, hcalls⟩ | ⟨hcalls, hrest, hres⟩
  · left
    exact ⟨i, e, hi, hres, hfresh, by simp [hrest], hcalls⟩
  · right
    exact ⟨hcalls, by simp [hrest], hres⟩

/-- Witness for C3: the entry stored at 0 is stale at the reading 100 and is
skipped, the entry stored at 97 is not stale at the reading 101 and is returned. -/
theorem Get_not_stale_witness :
    (∃ i e, [(⟨some 1, 0⟩ : idleConn), ⟨some 2, 97⟩][i]? = some e ∧
      (exAgedPool.Get exLateWorld).1 = .ok (e.conn, none) ∧
      exLateWorld.clock (exLateWorld.clockReads + i) ≤ e.t + exAgedPool.idleTimeout ∧
      (exAgedPool.Get exLateWorld).2.1.conns
        = some ⟨[(⟨some 1, 0⟩ : idleConn), ⟨some 2, 97⟩].drop (i + 1), 2, false⟩ ∧
      (exAgedPool.Get exLateWorld).2.2.factoryCalls = exLateWorld.factoryCalls) ∨
    ((exAgedPool.Get exLateWorld).2.2.factoryCalls = exLateWorld.factoryCalls + 1 ∧
      (exAgedPool.Get exLateWorld).2.1.conns = some ⟨[], 2, false⟩ ∧
      (((exFactory exLateWorld.factoryCalls).2 = none ∧
          (exAgedPool.Get exLateWorld).1 = .ok ((exFactory exLateWorld.factoryCalls).1, none)) ∨
        ∃ err, (exFactory exLateWorld.factoryCalls).2 = some err ∧
          (exAgedPool.Get exLateWorld).1 = .ok (none, some err))) :=
  Get_not_stale exAgedPool exLateWorld ⟨[⟨some 1, 0⟩, ⟨some 2, 97⟩], 2, false⟩
    exFactory exClose rfl rfl rfl rfl (by decide)

/-- C4: on an open pool whose idle buffer is empty, `Get` calls the factory
exactly once and never the destroy callback, returns the created resource with
a nil error when the factory succeeds and a nil resource with the error of the
factory itself when it fails, and `Len()` is 0 afterwards. -/
theorem Get_of_empty (c : channelPool) (w : World) (ch : Chan) (f : FactoryFn)
    (hch : c.conns = some ch) (hopen : ch.closed = false) (hempty : ch.buf = [])
    (hf : c.factory = some f) :
    (c.Get w).2.2.factoryCalls = w.factoryCalls + 1 ∧
    (c.Get w).2.2.closeLog = w.closeLog ∧
    ((f w.factoryCalls).2 = none → (c.Get w).1 = .ok ((f w.factoryCalls).1, none)) ∧
    (∀ err, (f w.factoryCalls).2 = some err → (c.Get w).1 = .ok (none, some err)) ∧
    (c.Get w).2.1.Len = 0 := by
  cases hr : (f w.factoryCalls).2 with
  | none => simp [channelPool.Get, hch, hempty, getLoop, hopen, hf, hr, World.made, channelPool.Len]
  | some e => simp [channelPool.Get, hch, hempty, getLoop, hopen, hf, hr, World.made, channelPool.Len]

/-- Witness for C4: the pool of `exConfig` after its only idle entry was taken. -/
theorem Get_of_empty_witness :
    ((run [.Get] exPool exWorld1).1.Get (run [.Get] exPool exWorld1).2).2.2.factoryCalls
      = (run [.Get] exPool exWorld1).2.factoryCalls + 1 ∧
    ((run [.Get] exPool exWorld1).1.Get (run [.Get] exPool exWorld1).2).2.2.closeLog
      = (run [.Get] exPool exWorld1).2.closeLog ∧
    ((exFactory (run [.Get] exPool exWorld1).2.factoryCalls).2 = none →
      ((run [.Get] exPool exWorld1).1.Get (run [.Get] exPool exWorld1).2).1
        = .ok ((exFactory (run [.Get] exPool exWorld1).2.factoryCalls).1, none)) ∧
    (∀ err, (exFactory (run [.Get] exPool exWorld1).2.factoryCalls).2 = some err →
      ((run [.Get] exPool exWorld1).1.Get (run [.Get] exPool exWorld1).2).1
        = .ok (none, some err)) ∧
    ((run [.Get] exPool exWorld1).1.Get (run [.Get] exPool exWorld1).2).2.1.Len = 0 :=
  Get_of_empty (run [.Get] exPool exWorld1).1 (run [.Get] exPool exWorld1).2
    ⟨[], 2, false⟩ exFactory rfl rfl rfl rfl

/-- C5: on an open pool whose oldest idle entry is not stale (`idleTimeout = 0`,
or the clock reads at most `t + idleTimeout`), `Get` returns the resource of
that entry with a nil error, takes exactly that entry out of the buffer, so the
other entries stay in their order and `Len()` drops by 1, and calls neither the
factory nor the destroy callback. -/
theorem Get_of_fresh (c : channelPool) (w : World) (ch : Chan) (e : idleConn)
    (rest : List idleConn) (hch : c.conns = some ch) (hbuf : ch.buf = e :: rest)
    (hfresh : c.idleTimeout = 0 ∨ w.now ≤ e.t + c.idleTimeout) :
    (c.Get w).1 = .ok (e.conn, none) ∧
    (c.Get w).2.1.conns = some { ch with buf := rest } ∧
    (c.Get w).2.1.Len + 1 = c.Len ∧
    (c.Get w).2.2.factoryCalls = w.factoryCalls ∧
    (c.Get w).2.2.closeLog = w.closeLog := by
  by_cases ht : 0 < c.idleTimeout
  · have hns : ¬ (e.t + c.idleTimeout < w.now) := by
      rcases hfresh with h0 | h1
      · omega
      · omega
    simp [channelPool.Get, hch, hbuf, getLoop, ht, hns, channelPool.Len, World.tick]
  · simp [channelPool.Get, hch, hbuf, getLoop, ht, channelPool.Len]

/-- Witness for C5: the first `Get` on the pool of `exConfig`. -/
theorem Get_of_fresh_witness :
    (exPool.Get exWorld1).1 = .ok (some 100, none) ∧
    (exPool.Get exWorld1).2.1.conns = some ⟨[], 2, false⟩ ∧
    (exPool.Get exWorld1).2.1.Len + 1 = exPool.Len ∧
    (exPool.Get exWorld1).2.2.factoryCalls = exWorld1.factoryCalls ∧
    (exPool.Get exWorld1).2.2.closeLog = exWorld1.closeLog :=
  Get_of_fresh exPool exWorld1 ⟨[⟨some 100, 0⟩], 2, false⟩ ⟨some 100, 0⟩ [] rfl rfl
    (Or.inl rfl)

/-- C6: on an open pool with `Len() < MaxCap` (the capacity of its channel),
`Put` of a non-nil resource returns nil, appends the entry made of the
resource and the clock reading at the tail of the buffer, so the earlier
entries are untouched and `Len()` grows by exactly 1, and calls neither the
factory nor the destroy callback. -/
theorem Put_of_room (c : channelPool) (w : World) (ch : Chan) (x : Nat)
    (hch : c.conns = some ch) (hopen : ch.closed = false) (hroom : ch.buf.length < ch.cap) :
    (c.Put (some x) w).1 = .ok none ∧
    (c.Put (some x) w).2.1.conns = some { ch with buf := ch.buf ++ [⟨some x, w.now⟩] } ∧
    (c.Put (some x) w).2.1.Len = c.Len + 1 ∧
    (c.Put (some x) w).2.2.factoryCalls = w.factoryCalls ∧
    (c.Put (some x) w).2.2.closeLog = w.closeLog := by
  simp [channelPool.Put, hch, hopen, hroom, channelPool.Len, World.tick]

/-- Witness for C6: the pool of `exConfig` holds one entry and has room for two. -/
theorem Put_of_room_witness :
    (exPool.Put (some 7) exWorld1).1 = .ok none ∧
    (exPool.Put (some 7) exWorld1).2.1.conns
      = some ⟨[⟨some 100, 0⟩] ++ [⟨some 7, exWorld1.now⟩], 2, false⟩ ∧
    (exPool.Put (some 7) exWorld1).2.1.Len = exPool.Len + 1 ∧
    (exPool.Put (some 7) exWorld1).2.2.factoryCalls = exWorld1.factoryCalls ∧
    (exPool.Put (some 7) exWorld1).2.2.closeLog = exWorld1.closeLog :=
  Put_of_room exPool exWorld1 ⟨[⟨some 100, 0⟩], 2, false⟩ 7 rfl rfl (by decide)

/-- C7, at the failing inputs: `Put` of the non-nil resource 7 on the full pool
`exFull`, and on the shut-down pool `exShut`, returns the error made by `Close`
and the log of destroy calls stays empty, although the destroy callback is in
place on the full pool and would have returned nil. -/
theorem Put_overflow_skips_destroy :
    exFull.1.Len = 2 ∧ exFull.2.closeLog = [] ∧
    (exFull.1.Put (some 7) exFull.2).1 = .ok (some (.New rejectMsg)) ∧
    (exFull.1.Put (some 7) exFull.2).2.2.closeLog = [] ∧
    exClose 0 (some 7) = none ∧
    exShut.1.conns = none ∧ exShut.2.closeLog = [some 100] ∧
    (exShut.1.Put (some 7) exShut.2).1 = .ok (some (.New rejectMsg)) ∧
    (exShut.1.Put (some 7) exShut.2).2.2.closeLog = [some 100] := by
  decide

/-- C8, at the failing input: `Close` of the non-nil resource 7 on the pool of
`exConfig` returns the error "connection is nil. rejecting" and the log of
destroy calls stays empty, although the destroy callback would have returned
nil; the buffer is not touched. -/
theorem Close_skips_destroy :
    (exPool.Close (some 7) exWorld1).1 = .ok (some (.New "connection is nil. rejecting")) ∧
    (exPool.Close (some 7) exWorld1).2.closeLog = [] ∧
    exClose 0 (some 7) = none ∧
    (step (.Close (some 7)) exPool exWorld1).2.1.conns = exPool.conns := by
  decide

/-- C9: on an open pool holding the idle entries `e1 .. en`, `Release` returns
after calling the destroy callback exactly once on the resource of each entry,
in queue order, whatever the callback returns on the earlier calls, calls the
factory not at all, and leaves the pool without its channel, so `Len()` is 0. -/
theorem Release_destroys_all (c : channelPool) (w : World) (ch : Chan) (g : CloseFn)
    (hch : c.conns = some ch) (hopen : ch.closed = false) (hg : c.close = some g) :
    (c.Release w).1 = .ok () ∧
    (c.Release w).2.2.closeLog = w.closeLog ++ ch.buf.map (fun e => e.conn) ∧
    (c.Release w).2.2.factoryCalls = w.factoryCalls ∧
    (c.Release w).2.1.conns = none ∧
    (c.Release w).2.1.Len = 0 := by
  simp [channelPool.Release, hch, hopen, hg, drain_of_close, channelPool.Len]

/-- Witness for C9: `Release` on `exFlakyPool`, with two idle entries and a
destroy callback that fails on its first call. -/
theorem Release_destroys_all_witness :
    exFlakyClose 0 (some 1) = some (.ext "broken pipe") ∧
    (exFlakyPool.Release exLateWorld).1 = .ok () ∧
    (exFlakyPool.Release exLateWorld).2.2.closeLog
      = exLateWorld.closeLog ++
        [(⟨some 1, 0⟩ : idleConn), ⟨some 2, 97⟩].map (fun e => e.conn) ∧
    (exFlakyPool.Release exLateWorld).2.2.factoryCalls = exLateWorld.factoryCalls ∧
    (exFlakyPool.Release exLateWorld).2.1.conns = none ∧
    (exFlakyPool.Release exLateWorld).2.1.Len = 0 :=
  ⟨by decide, Release_destroys_all exFlakyPool exLateWorld
    ⟨[⟨some 1, 0⟩, ⟨some 2, 97⟩], 2, false⟩ exFlakyClose rfl rfl rfl⟩

/-- C10: take a pool returned by `NewChannelPool` in a world where nothing was
destroyed yet, a factory that yields pairwise distinct non-nil resources, and
a caller that starts with resources `held` of its own (pairwise distinct, never
yielded by the factory) and passes each resource it holds, its own or obtained
from `Get`, to `Put` or `Close` at most once.  Then after every sequence of
calls the destroy callback has been called at most once on any resource. -/
theorem destroy_at_most_once (poolConfig : PoolConfig) (f : FactoryFn) (w0 w1 : World)
    (c : channelPool) (held : List Nat) (ops : List Op)
    (hF : poolConfig.Factory = some f) (hdist : DistinctFactory f)
    (hheld : Fresh f w0.factoryCalls (held.map some)) (hlog : w0.closeLog = [])
    (hnew : NewChannelPool poolConfig w0 = (.ok (some c, none), w1))
    (hobeys : obeys ops c w1 held = true) :
    ∀ x : Nat, (run ops c w1).2.closeLog.count (some x) ≤ 1 := by
  obtain ⟨_, _, hfill⟩ := NewChannelPool_returns poolConfig w0 w1 c none hnew
  refine Tracked_run f hdist ops c w1 held ?_ hobeys
  refine Tracked_fillLoop f hdist held _ _ _ _ _ _ ?_ hfill
  refine ⟨_, rfl, rfl, hF, ?_, ?_⟩
  · intro x
    rw [hlog]
    exact List.not_mem_nil _
  · simpa using hheld

/-- Witness for C10: the pool of `exConfig` and the caller `exLife`, who owns
the resource 7; only nil and the two idle resources get destroyed, once each. -/
theorem destroy_at_most_once_witness :
    obeys exLife exPool exWorld1 [7] = true ∧
    (run exLife exPool exWorld1).2.closeLog = [none, some 100, some 101] ∧
    ∀ x : Nat, (run exLife exPool exWorld1).2.closeLog.count (some x) ≤ 1 :=
  ⟨by decide, by decide,
    destroy_at_most_once exConfig exFactory exWorld exWorld1 exPool [7] exLife rfl
      ⟨fun i j _ _ h => by simpa [exFactory] using h, fun i _ => by simp [exFactory]⟩
      ⟨by simp, fun y hy => by
        simp only [List.map_cons, List.map_nil, List.mem_singleton] at hy
        subst hy
        exact ⟨by simp, fun i _ _ => by simp only [exFactory, ne_eq, Option.some.injEq]; omega⟩⟩
      rfl rfl (by decide)⟩

/-- C11, as stated, fails.  `exHugeConfig` has `0 ≤ InitialCap ≤ MaxCap`,
`MaxCap > 0` and a factory that always succeeds, but `MaxCap` is above the
capacity `make` can allocate: `NewChannelPool` panics when it makes the
channel, returns nothing, and has not called the factory. -/
theorem NewChannelPool_huge_panics :
    0 ≤ exHugeConfig.InitialCap ∧ exHugeConfig.InitialCap ≤ exHugeConfig.MaxCap ∧
    0 < exHugeConfig.MaxCap ∧ exHugeConfig.Factory = some exFactory ∧
    (∀ k, (exFactory k).2 = none) ∧
    (NewChannelPool exHugeConfig exWorld).1 = .panic ∧
    (NewChannelPool exHugeConfig exWorld).2.factoryCalls = 0 :=
  ⟨by decide, by decide, by decide, rfl, fun _ => rfl, rfl, rfl⟩

/-- C11, amended: for a configuration with `0 ≤ InitialCap ≤ MaxCap`, `MaxCap > 0`
no larger than the capacity `make` can allocate, and a factory that always
succeeds, `NewChannelPool` returns a pool with a nil error; its buffer holds
the `InitialCap` created resources in creation order, so `Len() = InitialCap`;
the factory was called exactly `InitialCap` times and the destroy callback not
at all. -/
theorem NewChannelPool_fills (poolConfig : PoolConfig) (f : FactoryFn) (w : World)
    (hF : poolConfig.Factory = some f) (hmin : 0 ≤ poolConfig.InitialCap)
    (hle : poolConfig.InitialCap ≤ poolConfig.MaxCap) (hmax : 0 < poolConfig.MaxCap)
    (hmake : poolConfig.MaxCap ≤ (w.chanLimit : Int))
    (hsucc : ∀ k, (f k).2 = none) :
    ∃ c, (NewChannelPool poolConfig w).1 = .ok (some c, none) ∧
      c.conns = some ⟨filled f w poolConfig.InitialCap.toNat, poolConfig.MaxCap.toNat, false⟩ ∧
      (filled f w poolConfig.InitialCap.toNat).map (fun e => e.conn)
        = (List.range poolConfig.InitialCap.toNat).map (fun i => (f (w.factoryCalls + i)).1) ∧
      (c.Len : Int) = poolConfig.InitialCap ∧
      ((NewChannelPool poolConfig w).2.factoryCalls : Int)
        = w.factoryCalls + poolConfig.InitialCap ∧
      (NewChannelPool poolConfig w).2.closeLog = w.closeLog := by
  have hvalid : ¬ (poolConfig.InitialCap < 0 ∨ poolConfig.MaxCap ≤ 0 ∨
      poolConfig.InitialCap > poolConfig.MaxCap) := by omega
  have hfits : ¬ ((w.chanLimit : Int) < poolConfig.MaxCap) := by omega
  have hfill := fillLoop_ok f poolConfig.InitialCap.toNat
    ⟨some ⟨[], poolConfig.MaxCap.toNat, false⟩, poolConfig.Factory, poolConfig.Close,
      poolConfig.IdleTimeout⟩ w ⟨[], poolConfig.MaxCap.toNat, false⟩ rfl rfl hF
    (by simp only [List.length_nil]; omega) (fun i _ => hsucc _)
  unfold NewChannelPool
  rw [if_neg hvalid, if_neg hfits, hfill]
  refine ⟨_, rfl, by simp, by simp [filled], ?_, ?_, rfl⟩
  · simp only [channelPool.Len, List.nil_append, filled, List.length_map, List.length_range]
    omega
  · simp only [Nat.cast_add]
    omega

/-- Witness for C11, amended: `NewChannelPool` on `exConfig`, whose factory
always succeeds and whose `MaxCap = 2` is within the limit of `make`. -/
theorem NewChannelPool_fills_witness :
    ∃ c, (NewChannelPool exConfig exWorld).1 = .ok (some c, none) ∧
      c.conns
        = some ⟨filled exFactory exWorld exConfig.InitialCap.toNat, exConfig.MaxCap.toNat, false⟩ ∧
      (filled exFactory exWorld exConfig.InitialCap.toNat).map (fun e => e.conn)
        = (List.range exConfig.InitialCap.toNat).map
            (fun i => (exFactory (exWorld.factoryCalls + i)).1) ∧
      (c.Len : Int) = exConfig.InitialCap ∧
      ((NewChannelPool exConfig exWorld).2.factoryCalls : Int)
        = exWorld.factoryCalls + exConfig.InitialCap ∧
      (NewChannelPool exConfig exWorld).2.closeLog = exWorld.closeLog :=
  NewChannelPool_fills exConfig exFactory exWorld rfl (by decide) (by decide) (by decide)
    (by decide) (fun _ => rfl)

/-- C12: when `InitialCap < 0`, `MaxCap ≤ 0` or `InitialCap > MaxCap`,
`NewChannelPool` returns no pool and a non-nil error, and calls neither the
factory nor the destroy callback. -/
theorem NewChannelPool_invalid (poolConfig : PoolConfig) (w : World)
    (h : poolConfig.InitialCap < 0 ∨ poolConfig.MaxCap ≤ 0 ∨
      poolConfig.InitialCap > poolConfig.MaxCap) :
    (NewChannelPool poolConfig w).1 = .ok (none, some (.New "invalid capacity settings")) ∧
    (NewChannelPool poolConfig w).2.factoryCalls = w.factoryCalls ∧
    (NewChannelPool poolConfig w).2.closeLog = w.closeLog := by
  unfold NewChannelPool
  rw [if_pos h]
  exact ⟨rfl, rfl, rfl⟩

/-- Witness for C12: `exBadConfig` has `InitialCap = 3` above `MaxCap = 2`. -/
theorem NewChannelPool_invalid_witness :
    (NewChannelPool exBadConfig exWorld).1
      = .ok (none, some (.New "invalid capacity settings")) ∧
    (NewChannelPool exBadConfig exWorld).2.factoryCalls = exWorld.factoryCalls ∧
    (NewChannelPool exBadConfig exWorld).2.closeLog = exWorld.closeLog :=
  NewChannelPool_invalid exBadConfig exWorld (by decide)

/-- C13, as stated, fails.  `exHugeFailConfig` is a valid configuration whose
factory succeeds on its first two calls and fails on the third, but its
`MaxCap` is above the capacity `make` can allocate: `NewChannelPool` panics
when it makes the channel, returns no error value, and has called neither the
factory nor the destroy callback. -/
theorem NewChannelPool_huge_fail_panics :
    exHugeFailConfig.InitialCap ≤ exHugeFailConfig.MaxCap ∧
    (2 : Int) < exHugeFailConfig.InitialCap ∧
    (∀ i, i < 2 → (exFailFactory (exWorld.factoryCalls + i)).2 = none) ∧
    (exFailFactory (exWorld.factoryCalls + 2)).2 = some (.ext "connection refused") ∧
    (NewChannelPool exHugeFailConfig exWorld).1 = .panic ∧
    (NewChannelPool exHugeFailConfig exWorld).2.factoryCalls = 0 ∧
    (NewChannelPool exHugeFailConfig exWorld).2.closeLog = [] :=
  ⟨by decide, by decide, by decide, rfl, rfl, rfl, rfl⟩

/-- C13, amended: for a configuration with both callbacks, `InitialCap ≤ MaxCap`
and `MaxCap` no larger than the capacity `make` can allocate, if the first
`k < InitialCap` factory calls succeed and the next one fails with `err`,
`NewChannelPool` returns no pool and a non-nil error whose message ends with
the message of `err`; the factory was called `k + 1` times and no more, and
the destroy callback was called exactly once on each of the `k` created
resources, in creation order. -/
theorem NewChannelPool_factory_fails (poolConfig : PoolConfig) (f : FactoryFn) (g : CloseFn)
    (w : World) (k : Nat) (err : error)
    (hF : poolConfig.Factory = some f) (hC : poolConfig.Close = some g)
    (hle : poolConfig.InitialCap ≤ poolConfig.MaxCap) (hk : (k : Int) < poolConfig.InitialCap)
    (hmake : poolConfig.MaxCap ≤ (w.chanLimit : Int))
    (hsucc : ∀ i, i < k → (f (w.factoryCalls + i)).2 = none)
    (hfail : (f (w.factoryCalls + k)).2 = some err) :
    ∃ e pre, (NewChannelPool poolConfig w).1 = .ok (none, some e) ∧
      e.Error = pre ++ err.Error ∧
      (NewChannelPool poolConfig w).2.factoryCalls = w.factoryCalls + k + 1 ∧
      (NewChannelPool poolConfig w).2.closeLog
        = w.closeLog ++ (List.range k).map (fun i => (f (w.factoryCalls + i)).1) := by
  have hvalid : ¬ (poolConfig.InitialCap < 0 ∨ poolConfig.MaxCap ≤ 0 ∨
      poolConfig.InitialCap > poolConfig.MaxCap) := by omega
  have hfits : ¬ ((w.chanLimit : Int) < poolConfig.MaxCap) := by omega
  have hfill := fillLoop_fail f g err k poolConfig.InitialCap.toNat
    ⟨some ⟨[], poolConfig.MaxCap.toNat, false⟩, poolConfig.Factory, poolConfig.Close,
      poolConfig.IdleTimeout⟩ w ⟨[], poolConfig.MaxCap.toNat, false⟩ (by omega) rfl rfl hF hC
    (by simp only [List.length_nil]; omega) hsucc hfail
  unfold NewChannelPool
  rw [if_neg hvalid, if_neg hfits, hfill]
  exact ⟨_, "factory is not able to fill the pool: ", rfl, rfl, rfl, by simp [filled]⟩

/-- Witness for C13, amended: `exFailConfig` asks for three resources and the
third factory call fails; the two resources made before are destroyed. -/
theorem NewChannelPool_factory_fails_witness :
    (NewChannelPool exFailConfig exWorld).2.closeLog = [some 100, some 101] ∧
    ∃ e pre, (NewChannelPool exFailConfig exWorld).1 = .ok (none, some e) ∧
      e.Error = pre ++ (error.ext "connection refused").Error ∧
      (NewChannelPool exFailConfig exWorld).2.factoryCalls = exWorld.factoryCalls + 2 + 1 ∧
      (NewChannelPool exFailConfig exWorld).2.closeLog
        = exWorld.closeLog ++
          (List.range 2).map (fun i => (exFailFactory (exWorld.factoryCalls + i)).1) :=
  ⟨by decide,
    NewChannelPool_factory_fails exFailConfig exFailFactory exClose exWorld 2
      (.ext "connection refused") rfl rfl (by decide) (by decide) (by decide) (by decide) rfl⟩

/-- C14, as stated, fails.  On the empty pool `exEmpty` (`Len() = 0`) `Get`
makes the resource 101 with the factory and `Put` stores it, so `Len()` is 1.
On `exAgedPool` (`Len() = 2`) `Get` drops a stale entry and returns the
resource 2, and after `Put` of it `Len()` is 1. -/
theorem Get_Put_changes_Len :
    (exEmpty.1.Len = 0 ∧
      (exEmpty.1.Get exEmpty.2).1 = .ok (some 101, none) ∧
      ((exEmpty.1.Get exEmpty.2).2.1.Put (some 101) (exEmpty.1.Get exEmpty.2).2.2).2.1.Len
        = 1) ∧
    (exAgedPool.Len = 2 ∧
      (exAgedPool.Get exLateWorld).1 = .ok (some 2, none) ∧
      ((exAgedPool.Get exLateWorld).2.1.Put (some 2)
        (exAgedPool.Get exLateWorld).2.2).2.1.Len = 1) := by
  decide

/-- C14, amended: on an open pool whose buffer is within its capacity and
whose oldest idle entry is not stale and holds a non-nil resource, `Get`
succeeds with that resource, and when it is then passed to `Put`, `Len()` is
again what it was before the `Get`. -/
theorem Get_Put_round_trip (c : channelPool) (w : World) (ch : Chan) (e : idleConn)
    (rest : List idleConn) (x : Nat)
    (hch : c.conns = some ch) (hopen : ch.closed = false) (hcap : ch.buf.length ≤ ch.cap)
    (hbuf : ch.buf = e :: rest) (hx : e.conn = some x)
    (hfresh : c.idleTimeout = 0 ∨ w.now ≤ e.t + c.idleTimeout) :
    (c.Get w).1 = .ok (some x, none) ∧
    ((c.Get w).2.1.Put (some x) (c.Get w).2.2).1 = .ok none ∧
    ((c.Get w).2.1.Put (some x) (c.Get w).2.2).2.1.Len = c.Len := by
  have hlt : rest.length < ch.cap := by
    rw [hbuf] at hcap
    simp only [List.length_cons] at hcap
    omega
  by_cases ht : 0 < c.idleTimeout
  · have hns : ¬ (e.t + c.idleTimeout < w.now) := by
      rcases hfresh with h0 | h1
      · omega
      · omega
    simp [channelPool.Get, channelPool.Put, hch, hbuf, getLoop, ht, hns, hx, hopen, hlt,
      channelPool.Len]
  · simp [channelPool.Get, channelPool.Put, hch, hbuf, getLoop, ht, hx, hopen, hlt,
      channelPool.Len]

/-- Witness for C14, amended: `Get` then `Put` on the pool of `exConfig`. -/
theorem Get_Put_round_trip_witness :
    (exPool.Get exWorld1).1 = .ok (some 100, none) ∧
    ((exPool.Get exWorld1).2.1.Put (some 100) (exPool.Get exWorld1).2.2).1 = .ok none ∧
    ((exPool.Get exWorld1).2.1.Put (some 100) (exPool.Get exWorld1).2.2).2.1.Len
      = exPool.Len :=
  Get_Put_round_trip exPool exWorld1 ⟨[⟨some 100, 0⟩], 2, false⟩ ⟨some 100, 0⟩ [] 100
    rfl rfl (by decide) rfl rfl (Or.inl rfl)

/-- C15, at the failing input: on `exAgedPool` (idle timeout 5) with the clock
at 100, `Get` removes the entry stored at 0 because it is stale, and returns
the resource 2 with an empty buffer left, yet the log of destroy calls is still
empty: the destroy callback was not called on the resource 1. -/
theorem Get_stale_skips_destroy :
    (0 : Int) + exAgedPool.idleTimeout < exLateWorld.now ∧
    exAgedPool.conns = some ⟨[⟨some 1, 0⟩, ⟨some 2, 97⟩], 2, false⟩ ∧
    (exAgedPool.Get exLateWorld).1 = .ok (some 2, none) ∧
    (exAgedPool.Get exLateWorld).2.1.conns = some ⟨[], 2, false⟩ ∧
    (exAgedPool.Get exLateWorld).2.2.closeLog = [] := by
  decide

/-- C16: on every pool, open or shut down, `Put` of nil returns a non-nil
error and leaves the pool and the world as they were: the buffer and `Len()`
are unchanged, and neither the factory nor the destroy callback is called. -/
theorem Put_nil_rejected (c : channelPool) (w : World) :
    c.Put none w = (.ok (some (.New rejectMsg)), c, w) ∧
    (c.Put none w).2.1.Len = c.Len ∧
    (c.Put none w).2.2.factoryCalls = w.factoryCalls ∧
    (c.Put none w).2.2.closeLog = w.closeLog := by
  simp [channelPool.Put]

/-- C17: a second `Release` right after a first one returns, leaves the pool
and the world exactly as the first one left them (no channel, `Len() = 0`), and
so calls the destroy callback zero times. -/
theorem Release_twice (c : channelPool) (w : World) :
    (c.Release w).2.1.Release (c.Release w).2.2
      = (.ok (), (c.Release w).2.1, (c.Release w).2.2) ∧
    ((c.Release w).2.1.Release (c.Release w).2.2).2.1.conns = none ∧
    ((c.Release w).2.1.Release (c.Release w).2.2).2.1.Len = 0 ∧
    ((c.Release w).2.1.Release (c.Release w).2.2).2.2.closeLog = (c.Release w).2.2.closeLog := by
  have h : (c.Release w).2.1 = { c with conns := none, factory := none, close := none } := by
    unfold channelPool.Release
    cases hch : c.conns with
    | none => rfl
    | some ch => by_cases hcl : ch.closed = true <;> simp [hcl]
  rw [h]
  simp [channelPool.Release, channelPool.Len]

/-- C18: once `Release` has been called, after every further sequence of
`Get`, `Put`, `Close`, `Release` and `Len` calls, with any arguments, the pool
has no channel and `Len()` is 0. -/
theorem Len_after_Release (c : channelPool) (w : World) (ops : List Op) :
    (run ops (c.Release w).2.1 (c.Release w).2.2).1.conns = none ∧
    (run ops (c.Release w).2.1 (c.Release w).2.2).1.Len = 0 := by
  have h := run_conns_of_nil ops (c.Release w).2.1 (c.Release w).2.2 (Release_conns c w)
  exact ⟨h, by simp [channelPool.Len, h]⟩

/-- C20: on a pool whose destroy callback is in place, `Close` of a non-nil
resource returns the non-nil error "connection is nil. rejecting" and does not
call the destroy callback, whereas `Close` of nil calls the destroy callback
with nil, once, and returns its result. -/
theorem Close_guard (c : channelPool) (w : World) (g : CloseFn) (x : Nat)
    (hg : c.close = some g) :
    c.Close (some x) w = (.ok (some (.New "connection is nil. rejecting")), w) ∧
    (c.Close none w).1 = .ok (g w.closeLog.length none) ∧
    (c.Close none w).2.closeLog = w.closeLog ++ [none] := by
  simp [channelPool.Close, hg, World.destroyed, rejectMsg]

/-- Witness for C20: `Close` of 7 and of nil on `exFlakyPool`, whose destroy
callback fails on its first call. -/
theorem Close_guard_witness :
    exFlakyPool.Close (some 7) exLateWorld
      = (.ok (some (.New "connection is nil. rejecting")), exLateWorld) ∧
    (exFlakyPool.Close none exLateWorld).1
      = .ok (exFlakyClose exLateWorld.closeLog.length none) ∧
    (exFlakyPool.Close none exLateWorld).2.closeLog = exLateWorld.closeLog ++ [none] :=
  Close_guard exFlakyPool exLateWorld exFlakyClose 7 rfl

end pool
